import Mathlib

/-!
# Verification of the MCTS engine in `src/mcts_modified.py`

Shallow embedding of the Monte Carlo Tree Search engine of this repository.
The Python module `mcts_modified.py` is embedded function by function:

* The external `Board` capability (module `p2_t3`, out of scope per the spec,
  §6) is an opaque record of pure functions, `GameBoard`.
* The `MCTSNode` class lives in `mcts_node.py`, which is not part of the
  sources given; its fields and constructor are modelled from the spec (§3).
  Python's mutable tree with parent pointers becomes a pure inductive tree;
  functions that walked parent pointers instead work on the path of actions
  from the root, and mutation becomes tree rebuilding.
* `random.choice(seq)` draws one value from an explicit stream of naturals
  (`List Nat`): `pyChoice r seq` picks index `r % seq.length`, and each call
  site consumes one element of the stream, mirroring one PRNG draw.
* Python's `max(iterable, key=f)` is `pyMaxBy`: a left fold that keeps the
  earliest element whose key is maximal, exactly Python's tie behaviour.
* The wall-clock loop `while time() - start_time < time_limit` is modelled
  by an explicit iteration count: `time_limit = 0` corresponds to zero
  iterations (the elapsed time, being nonnegative, is never `< 0`), and a
  run whose loop body executed `N` times corresponds to `think` at `N`.
* Exceptions (the `assert` in `is_win`, `ValueError` from `max` on an empty
  dict, `IndexError` from `choice` on an empty list) are `Option.none`.
* Rollouts are given fuel: the Python loop relies on the game terminating,
  which the opaque board cannot guarantee, so `rollout` returns `none` when
  the fuel runs out.  Float arithmetic in `ucb` is idealised as real
  arithmetic with `+inf` modelled by `⊤ : WithTop ℝ`.
-/

namespace MCTS

/-- The `Board` capability from `p2_t3` (spec §6): pure functions over an
opaque state type `S` with actions `A`.  `points_values` is `none` exactly on
non-terminal states and otherwise maps each player (1 or 2) to a score. -/
structure GameBoard (S A : Type) where
  current_player : S → Nat
  is_ended : S → Bool
  legal_actions : S → List A
  next_state : S → A → S
  points_values : S → Option (Nat → ℚ)

/-- Modelled from the spec: the `MCTSNode` class of `mcts_node.py`, which is
not among the given sources.  Per spec §3 a node holds `parent_action`
(absent for the root), `wins`, `visits`, the `untried_actions` list and the
`child_nodes` mapping (action → child, in insertion order, as a Python dict
preserves).  The parent back-reference is not stored: the pure tree is
addressed by paths of actions from the root instead. -/
inductive MCTSNode (A : Type) : Type where
  | mk (parent_action : Option A) (wins visits : Nat)
      (untried_actions : List A) (child_nodes : List (A × MCTSNode A)) : MCTSNode A

variable {S A : Type} {β : Type}

def MCTSNode.parent_action : MCTSNode A → Option A
  | .mk pa _ _ _ _ => pa

def MCTSNode.wins : MCTSNode A → Nat
  | .mk _ w _ _ _ => w

def MCTSNode.visits : MCTSNode A → Nat
  | .mk _ _ v _ _ => v

def MCTSNode.untried_actions : MCTSNode A → List A
  | .mk _ _ _ ua _ => ua

def MCTSNode.child_nodes : MCTSNode A → List (A × MCTSNode A)
  | .mk _ _ _ _ ch => ch

@[simp] theorem MCTSNode.parent_action_mk (pa : Option A) (w v : Nat) (ua : List A)
    (ch : List (A × MCTSNode A)) : (MCTSNode.mk pa w v ua ch).parent_action = pa := rfl

@[simp] theorem MCTSNode.wins_mk (pa : Option A) (w v : Nat) (ua : List A)
    (ch : List (A × MCTSNode A)) : (MCTSNode.mk pa w v ua ch).wins = w := rfl

@[simp] theorem MCTSNode.visits_mk (pa : Option A) (w v : Nat) (ua : List A)
    (ch : List (A × MCTSNode A)) : (MCTSNode.mk pa w v ua ch).visits = v := rfl

@[simp] theorem MCTSNode.untried_actions_mk (pa : Option A) (w v : Nat) (ua : List A)
    (ch : List (A × MCTSNode A)) : (MCTSNode.mk pa w v ua ch).untried_actions = ua := rfl

@[simp] theorem MCTSNode.child_nodes_mk (pa : Option A) (w v : Nat) (ua : List A)
    (ch : List (A × MCTSNode A)) : (MCTSNode.mk pa w v ua ch).child_nodes = ch := rfl

/-- Modelled from the spec: the `MCTSNode` constructor as called in
`mcts_modified.py` (`MCTSNode(parent=…, parent_action=…, action_list=…)`):
a fresh node starts with `wins = 0`, `visits = 0`, `untried_actions` equal to
the given action list, and no children (spec §3, lifecycle). -/
def MCTSNode.new (parent_action : Option A) (action_list : List A) : MCTSNode A :=
  .mk parent_action 0 0 action_list []

/-- Python's `random.choice(xs)`: the PRNG draw is the explicit natural `r`
and the chosen element is `xs[r % len(xs)]`; `none` models the `IndexError`
raised on an empty sequence. -/
def pyChoice (r : Nat) (xs : List A) : Option A :=
  xs[r % xs.length]?

/-- Python's `max(x :: xs, key=f)`: fold left keeping the current best and
replacing it only on a strictly larger key, so the earliest maximal element
wins ties, exactly as Python's `max` does. -/
def pyMaxBy [LinearOrder β] (f : A → β) (x : A) (xs : List A) : A :=
  xs.foldl (fun best c => if f best < f c then c else best) x

theorem pyMaxBy_mem [LinearOrder β] (f : A → β) (x : A) (xs : List A) :
    pyMaxBy f x xs ∈ x :: xs := by
  induction xs generalizing x with
  | nil => simp [pyMaxBy]
  | cons c cs ih =>
    have h := ih (if f x < f c then c else x)
    rcases List.mem_cons.mp h with h1 | h1
    · by_cases hfc : f x < f c
      · simp only [pyMaxBy, List.foldl_cons]
        rw [if_pos hfc] at h1 ⊢
        simp [pyMaxBy] at h1
        simp [h1]
      · simp only [pyMaxBy, List.foldl_cons]
        rw [if_neg hfc] at h1 ⊢
        simp [pyMaxBy] at h1
        simp [h1]
    · simp only [pyMaxBy, List.foldl_cons]
      by_cases hfc : f x < f c
      · rw [if_pos hfc]
        have : pyMaxBy f c cs ∈ c :: cs := by
          rw [if_pos hfc] at h; simpa [pyMaxBy] using h
        simp [pyMaxBy] at this ⊢
        tauto
      · rw [if_neg hfc]
        have : pyMaxBy f x cs ∈ x :: cs := by
          rw [if_neg hfc] at h; simpa [pyMaxBy] using h
        simp [pyMaxBy] at this ⊢
        tauto

theorem pyMaxBy_is_max [LinearOrder β] (f : A → β) (x : A) (xs : List A) :
    ∀ y ∈ x :: xs, f y ≤ f (pyMaxBy f x xs) := by
  induction xs generalizing x with
  | nil => intro y hy; simp at hy; simp [pyMaxBy, hy]
  | cons c cs ih =>
    intro y hy
    have hstep : pyMaxBy f x (c :: cs) = pyMaxBy f (if f x < f c then c else x) cs := by
      simp [pyMaxBy]
    have hself : f (if f x < f c then c else x) ≤ f (pyMaxBy f (if f x < f c then c else x) cs) :=
      ih _ _ (List.mem_cons_self _ _)
    rcases List.mem_cons.mp hy with h1 | h1
    · subst h1
      rw [hstep]
      by_cases hfc : f y < f c
      · rw [if_pos hfc] at hself ⊢
        exact le_trans (le_of_lt hfc) hself
      · rw [if_neg hfc] at hself ⊢
        exact hself
    · rcases List.mem_cons.mp h1 with h2 | h2
      · subst h2
        rw [hstep]
        by_cases hfc : f x < f y
        · rw [if_pos hfc] at hself ⊢
          exact hself
        · rw [if_neg hfc] at hself ⊢
          exact le_trans (le_of_not_lt hfc) hself
      · rw [hstep]
        exact ih _ _ (List.mem_cons_of_mem _ h2)

/-- Module-level constant `explore_faction = 2.` of `mcts_modified.py`. -/
noncomputable def explore_faction : ℝ := 2

/-- Embedding of `ucb(node, is_opponent)` from `mcts_modified.py`.  The Python function
reads `node.parent.visits` through the parent pointer; the pure tree has no
parent pointers, so the parent's visit count is passed as `parent_visits`.
`float('inf')` is `⊤ : WithTop ℝ` and float arithmetic is idealised as real
arithmetic. -/
noncomputable def ucb (node : MCTSNode A) (is_opponent : Bool) (parent_visits : Nat) :
    WithTop ℝ :=
  if node.visits = 0 then ⊤
  else
    let win_rate : ℝ := (node.wins : ℝ) / (node.visits : ℝ)
    let wr : ℝ := if is_opponent then 1 - win_rate else win_rate
    ((wr + explore_faction * Real.sqrt (Real.log (parent_visits : ℝ) / (node.visits : ℝ)) :
      ℝ) : WithTop ℝ)

/-- The child-selection step inside `traverse_nodes`:
`max(node.child_nodes.values(), key=lambda n: ucb(n, board.current_player(state) != bot_identity))`.
The children are kept as (action, child) pairs so the chosen action is the
pair's key; by construction (`expand_leaf`) the key equals the child's
`parent_action`, which is what the Python code reads back. -/
noncomputable def select_child (board : GameBoard S A) (bot_identity : Nat) (state : S)
    (parent_visits : Nat) (c : A × MCTSNode A) (cs : List (A × MCTSNode A)) :
    A × MCTSNode A :=
  pyMaxBy (fun p => ucb p.2 (board.current_player state != bot_identity) parent_visits) c cs

theorem sizeOf_snd_lt_of_mem_child_nodes [SizeOf A] {t : MCTSNode A} {p : A × MCTSNode A}
    (h : p ∈ t.child_nodes) : sizeOf p.2 < sizeOf t := by
  cases t with
  | mk pa w v ua ch =>
    simp only [MCTSNode.child_nodes_mk] at h
    have h1 : sizeOf p < sizeOf ch := List.sizeOf_lt_of_mem h
    cases p with
    | mk a c =>
      simp only [MCTSNode.mk.sizeOf_spec]
      simp only [Prod.mk.sizeOf_spec] at h1
      omega

/-- Embedding of `traverse_nodes(node, board, state, bot_identity)` from
`mcts_modified.py`: the Python `while` loop descending the tree becomes
recursion on the (finite) tree; instead of the reached node the function
returns the path of actions from the given node to it (the node itself is
recovered with `nodeAt`), together with the reached state, exactly as the
loop leaves them. -/
noncomputable def traverse_nodes [DecidableEq A] (board : GameBoard S A)
    (bot_identity : Nat) : MCTSNode A → S → List A × S
  | node, state =>
    if board.is_ended state = false ∧ node.untried_actions = [] then
      match hc : node.child_nodes with
      | [] => ([], state)
      | c :: cs =>
        let chosen := select_child board bot_identity state node.visits c cs
        match traverse_nodes board bot_identity chosen.2 (board.next_state state chosen.1) with
        | (p, s) => (chosen.1 :: p, s)
    else ([], state)
termination_by node => sizeOf node
decreasing_by
  have hmem : select_child board bot_identity state node.visits c cs ∈ c :: cs :=
    pyMaxBy_mem _ c cs
  have : select_child board bot_identity state node.visits c cs ∈ node.child_nodes := by
    rw [hc]; exact hmem
  exact sizeOf_snd_lt_of_mem_child_nodes this

/-- Python dict assignment `d[k] = v`: replaces in place when the key is
present, otherwise appends, preserving insertion order. -/
def dictInsert [DecidableEq A] (kvs : List (A × MCTSNode A)) (k : A) (v : MCTSNode A) :
    List (A × MCTSNode A) :=
  if kvs.any (fun p => decide (p.1 = k)) then
    kvs.map (fun p => if p.1 = k then (k, v) else p)
  else kvs ++ [(k, v)]

/-- Embedding of `expand_leaf(node, board, state)` from `mcts_modified.py`: draw an action
from `untried_actions` via `choice` (one PRNG value `r`), build the child
with the legal actions of the successor state, insert it into `child_nodes`
and remove the action from `untried_actions`.  The pure version returns the
updated parent together with the chosen action and the successor state;
`none` models the `IndexError` from `choice([])`. -/
def expand_leaf [DecidableEq A] (board : GameBoard S A) (node : MCTSNode A) (state : S)
    (r : Nat) : Option (MCTSNode A × A × S) :=
  match pyChoice r node.untried_actions with
  | none => none
  | some action =>
    let ns := board.next_state state action
    let child_node := MCTSNode.new (some action) (board.legal_actions ns)
    match node with
    | .mk pa w v ua ch =>
      some (.mk pa w v (ua.erase action) (dictInsert ch action child_node), action, ns)

/-- Embedding of `is_win(board, state, identity_of_bot)` from `mcts_modified.py`: `none`
models the `AssertionError` raised when `points_values` is `None` on a
non-terminal state; otherwise the bot's score is compared with 1. -/
def is_win (board : GameBoard S A) (state : S) (identity_of_bot : Nat) : Option Bool :=
  match board.points_values state with
  | none => none
  | some outcome => some (decide (outcome identity_of_bot = 1))

/-- The first loop's condition in `heuristic_action_choice`:
`board.points_values(next_state) is not None` — the action leads to a
terminal state. -/
def winning_move_cond (board : GameBoard S A) (state : S) (action : A) : Bool :=
  (board.points_values (board.next_state state action)).isSome

/-- The second loop's condition in `heuristic_action_choice`:
`board.points_values(next_state) is not None and is_win(board, next_state,
opponent)` with `opponent = 3 - board.current_player(state)`.  Python's
`and` short-circuits, which `&&` with `Option.getD false` reproduces: the
assertion inside `is_win` cannot fire here. -/
def blocking_cond (board : GameBoard S A) (state : S) (action : A) : Bool :=
  (board.points_values (board.next_state state action)).isSome &&
    (is_win board (board.next_state state action)
      (3 - board.current_player state)).getD false

/-- Embedding of `heuristic_action_choice(board, state, legal_actions)` from
`mcts_modified.py`: the two `for` loops return the first action satisfying
their condition (`List.find?`), the fallback draws one value from the
random stream.  Returns the chosen action and the remaining stream; `none`
models `choice([])`. -/
def heuristic_action_choice (board : GameBoard S A) (state : S) (legal_actions : List A)
    (rand : List Nat) : Option (A × List Nat) :=
  match legal_actions.find? (winning_move_cond board state) with
  | some action => some (action, rand)
  | none =>
    match legal_actions.find? (blocking_cond board state) with
    | some action => some (action, rand)
    | none =>
      match pyChoice (rand.headD 0) legal_actions with
      | none => none
      | some action => some (action, rand.tail)

/-- Embedding of `rollout(board, state)` from `mcts_modified.py`: play heuristic moves
until the state is terminal.  The Python loop relies on the game ending;
the opaque board cannot guarantee that, so the embedding takes fuel and
returns `none` when it runs out (or when a heuristic call fails). -/
def rollout (board : GameBoard S A) : Nat → S → List Nat → Option (S × List Nat)
  | fuel, state, rand =>
    if board.is_ended state then some (state, rand)
    else
      match fuel with
      | 0 => none
      | f + 1 =>
        match heuristic_action_choice board state (board.legal_actions state) rand with
        | none => none
        | some (action, rand1) => rollout board f (board.next_state state action) rand1

/-- Statistics of one node: the pair of fields `backpropagate` updates. -/
structure NodeStats where
  visits : Nat
  wins : Nat
deriving DecidableEq

/-- Embedding of `backpropagate(node, won)` from `mcts_modified.py`, embedded directly on
the chain of nodes the Python `while node is not None` loop walks: the list
holds the statistics of the starting node first and the root last (each step
moves to the parent), each node's `visits` grows by 1 and its `wins` by the
current credit, and the credit is inverted between steps. -/
def backpropagate : List NodeStats → Bool → List NodeStats
  | [], _ => []
  | s :: rest, won => ⟨s.visits + 1, s.wins + cond won 1 0⟩ :: backpropagate rest (!won)

/-- Increment a node's `visits` by 1 and its `wins` by the given credit:
the per-node update of `backpropagate`. -/
def incrNode (t : MCTSNode A) (credit : Bool) : MCTSNode A :=
  match t with
  | .mk pa w v ua ch => .mk pa (w + cond credit 1 0) (v + 1) ua ch

/-- Look up the child stored under action `a` (Python `node.child_nodes[a]`). -/
def lookupChild [DecidableEq A] (t : MCTSNode A) (a : A) : Option (MCTSNode A) :=
  (t.child_nodes.find? (fun p => decide (p.1 = a))).map Prod.snd

/-- Replace the child stored under action `a`. -/
def setChild [DecidableEq A] (t : MCTSNode A) (a : A) (c : MCTSNode A) : MCTSNode A :=
  match t with
  | .mk pa w v ua ch => .mk pa w v ua (ch.map (fun p => if p.1 = a then (a, c) else p))

/-- The function `backpropagate` acting on the pure tree: the update of the parent-pointer
walk, applied along the path from the root to the node the walk starts at.
The node at distance `d` above the path's end receives credit `won`
inverted `d` times, exactly as the loop's alternation produces; the path's
end is the Python call's `node`, the path's start the root. -/
def backpropPath [DecidableEq A] : List A → Bool → MCTSNode A → MCTSNode A
  | [], won, t => incrNode t won
  | a :: rest, won, t =>
    let t1 := incrNode t (won ^^ decide ((rest.length + 1) % 2 = 1))
    match lookupChild t a with
    | none => t1
    | some c => setChild t1 a (backpropPath rest won c)

/-- The node addressed by a path of actions from `t`. -/
def nodeAt [DecidableEq A] : List A → MCTSNode A → Option (MCTSNode A)
  | [], t => some t
  | a :: rest, t =>
    match lookupChild t a with
    | none => none
    | some c => nodeAt rest c

/-- Replace the subtree addressed by a path of actions from `t`. -/
def replaceAt [DecidableEq A] : List A → MCTSNode A → MCTSNode A → MCTSNode A
  | [], _t, new => new
  | a :: rest, t, new =>
    match lookupChild t a with
    | none => t
    | some c => setChild t a (replaceAt rest c new)

/-- Embedding of `get_best_action(root_node)` from `mcts_modified.py`:
`max(root_node.child_nodes.items(), key=lambda child: child[1].visits)[0]`.
`none` models the `ValueError` Python's `max` raises on an empty dict. -/
def get_best_action (root_node : MCTSNode A) : Option A :=
  match root_node.child_nodes with
  | [] => none
  | c :: cs => some (pyMaxBy (fun child => child.2.visits) c cs).1

/-- The `# Expand` step of the loop body of `think`: when the reached state
is non-terminal, expand the node the traversal stopped at (recovered from
the path) and rebuild the tree along that path; otherwise the iteration
continues from the reached node and state unchanged.  Returns the (possibly
rebuilt) tree, the path to the node to backpropagate from, the state to
roll out from, and the remaining random stream. -/
def expand_stage [DecidableEq A] (board : GameBoard S A) (root : MCTSNode A)
    (path0 : List A) (state0 : S) (rand : List Nat) :
    Option (MCTSNode A × List A × S × List Nat) :=
  if board.is_ended state0 then some (root, path0, state0, rand)
  else
    match nodeAt path0 root with
    | none => none
    | some node =>
      match expand_leaf board node state0 (rand.headD 0) with
      | none => none
      | some (node1, action, ns) =>
        some (replaceAt path0 root node1, path0 ++ [action], ns, rand.tail)

/-- One pass of the loop body of `think`: Traverse, Expand (when the reached
state is non-terminal), Rollout, Backpropagate.  The tree is rebuilt along
the traversed path; `none` models any exception escaping the iteration. -/
noncomputable def mcts_iteration [DecidableEq A] (board : GameBoard S A)
    (bot_identity : Nat) (current_state : S) (root : MCTSNode A) (rand : List Nat)
    (fuel : Nat) : Option (MCTSNode A × List Nat) :=
  match traverse_nodes board bot_identity root current_state with
  | (path0, state0) =>
    match expand_stage board root path0 state0 rand with
    | none => none
    | some (tree, path, state, rand1) =>
      match rollout board fuel state rand1 with
      | none => none
      | some (end_state, rand2) =>
        match is_win board end_state bot_identity with
        | none => none
        | some won => some (backpropPath path won tree, rand2)

/-- The `while time() - start_time < time_limit` loop of `think`, with the
wall clock replaced by an explicit iteration count. -/
noncomputable def think_loop [DecidableEq A] (board : GameBoard S A) (bot_identity : Nat)
    (current_state : S) : Nat → MCTSNode A → List Nat → Nat →
    Option (MCTSNode A × List Nat)
  | 0, root, rand, _ => some (root, rand)
  | n + 1, root, rand, fuel =>
    match mcts_iteration board bot_identity current_state root rand fuel with
    | none => none
    | some (root1, rand1) => think_loop board bot_identity current_state n root1 rand1 fuel

/-- Embedding of `think(board, current_state, time_limit)` from `mcts_modified.py`: the
bot's identity is the player to move, the root starts with the legal actions
of the current state, the loop runs `iterations` times (the number of times
the wall-clock condition held), and the action of the most-visited root
child is returned.  The final tree is returned alongside the action so its
statistics can be inspected; `none` models an uncaught exception. -/
noncomputable def think [DecidableEq A] (board : GameBoard S A) (current_state : S)
    (iterations : Nat) (rand : List Nat) (fuel : Nat) : Option (A × MCTSNode A) :=
  let bot_identity := board.current_player current_state
  let root_node : MCTSNode A := MCTSNode.new none (board.legal_actions current_state)
  match think_loop board bot_identity current_state iterations root_node rand fuel with
  | none => none
  | some (root1, _) =>
    match get_best_action root1 with
    | none => none
    | some best_action => some (best_action, root1)

theorem backpropagate_length (chain : List NodeStats) (won : Bool) :
    (backpropagate chain won).length = chain.length := by
  induction chain generalizing won with
  | nil => rfl
  | cons s rest ih => simp [backpropagate, ih]

theorem bool_flip_parity (won : Bool) (i : Nat) :
    ((!won) ^^ decide (i % 2 = 1)) = (won ^^ decide ((i + 1) % 2 = 1)) := by
  have h2 : i % 2 = 0 ∨ i % 2 = 1 := by omega
  rcases h2 with h | h
  · have h1 : (i + 1) % 2 = 1 := by omega
    simp [h, h1]
  · have h1 : ¬ (i + 1) % 2 = 1 := by omega
    simp [h, h1]

theorem backpropagate_getElem (chain : List NodeStats) (won : Bool) (i : Nat)
    (s : NodeStats) (h : chain[i]? = some s) :
    (backpropagate chain won)[i]? =
      some ⟨s.visits + 1, s.wins + cond (won ^^ decide (i % 2 = 1)) 1 0⟩ := by
  induction chain generalizing won i with
  | nil => simp at h
  | cons t rest ih =>
    cases i with
    | zero =>
      simp only [List.getElem?_cons_zero, Option.some.injEq] at h
      subst h
      simp [backpropagate]
    | succ j =>
      simp only [List.getElem?_cons_succ] at h
      have := ih (!won) j h
      rw [bool_flip_parity] at this
      simpa [backpropagate] using this

theorem incrNode_visits (t : MCTSNode A) (credit : Bool) :
    (incrNode t credit).visits = t.visits + 1 := by
  cases t; simp [incrNode]

theorem setChild_visits [DecidableEq A] (t : MCTSNode A) (a : A) (c : MCTSNode A) :
    (setChild t a c).visits = t.visits := by
  cases t; simp [setChild]

theorem backpropPath_visits [DecidableEq A] (p : List A) (won : Bool) (t : MCTSNode A) :
    (backpropPath p won t).visits = t.visits + 1 := by
  cases p with
  | nil => simp [backpropPath, incrNode_visits]
  | cons a rest =>
    simp only [backpropPath]
    cases h : lookupChild t a with
    | none => simp [incrNode_visits]
    | some c => simp [setChild_visits, incrNode_visits]

theorem replaceAt_visits_cons [DecidableEq A] (a : A) (rest : List A) (t new : MCTSNode A) :
    (replaceAt (a :: rest) t new).visits = t.visits := by
  simp only [replaceAt]
  cases h : lookupChild t a with
  | none => rfl
  | some c => simp [setChild_visits]

theorem expand_leaf_visits [DecidableEq A] (board : GameBoard S A) (node : MCTSNode A)
    (state : S) (r : Nat) (node1 : MCTSNode A) (action : A) (ns : S)
    (h : expand_leaf board node state r = some (node1, action, ns)) :
    node1.visits = node.visits := by
  simp only [expand_leaf] at h
  cases hp : pyChoice r node.untried_actions with
  | none => rw [hp] at h; simp at h
  | some act =>
    rw [hp] at h
    cases node with
    | mk pa w v ua ch =>
      simp only [Option.some.injEq, Prod.mk.injEq] at h
      rcases h with ⟨h1, _, _⟩
      rw [← h1]
      simp

theorem expand_stage_visits [DecidableEq A] (board : GameBoard S A) (root : MCTSNode A)
    (path0 : List A) (state0 : S) (rand : List Nat) (tree : MCTSNode A) (path : List A)
    (state : S) (rand1 : List Nat)
    (h : expand_stage board root path0 state0 rand = some (tree, path, state, rand1)) :
    tree.visits = root.visits := by
  simp only [expand_stage] at h
  by_cases hend : board.is_ended state0
  · rw [if_pos hend] at h
    simp only [Option.some.injEq, Prod.mk.injEq] at h
    rcases h with ⟨h1, _⟩
    rw [← h1]
  · rw [if_neg hend] at h
    cases hn : nodeAt path0 root with
    | none => rw [hn] at h; simp at h
    | some node =>
      rw [hn] at h
      dsimp only at h
      cases hx : expand_leaf board node state0 (rand.headD 0) with
      | none => rw [hx] at h; simp at h
      | some tr =>
        rw [hx] at h
        dsimp only at h
        cases tr with
        | mk node1 pr =>
          cases pr with
          | mk action ns =>
            simp only [Option.some.injEq, Prod.mk.injEq] at h
            rcases h with ⟨h1, _⟩
            rw [← h1]
            cases path0 with
            | nil =>
              simp only [nodeAt] at hn
              have hv := expand_leaf_visits board node state0 (rand.headD 0)
                node1 action ns hx
              simp only [replaceAt]
              rw [hv]
              cases hn
              rfl
            | cons a rest =>
              rw [replaceAt_visits_cons]

theorem mcts_iteration_visits [DecidableEq A] (board : GameBoard S A) (bot_identity : Nat)
    (current_state : S) (root : MCTSNode A) (rand : List Nat) (fuel : Nat)
    (root1 : MCTSNode A) (rand1 : List Nat)
    (h : mcts_iteration board bot_identity current_state root rand fuel =
      some (root1, rand1)) :
    root1.visits = root.visits + 1 := by
  simp only [mcts_iteration] at h
  cases htr : traverse_nodes board bot_identity root current_state with
  | mk path0 state0 =>
    rw [htr] at h
    dsimp only at h
    cases hx : expand_stage board root path0 state0 rand with
    | none => rw [hx] at h; simp at h
    | some q =>
      rw [hx] at h
      obtain ⟨tree, path, state, rand2⟩ := q
      dsimp only at h
      cases hro : rollout board fuel state rand2 with
      | none => rw [hro] at h; simp at h
      | some pr =>
        rw [hro] at h
        cases pr with
        | mk end_state rand3 =>
          dsimp only at h
          cases hw : is_win board end_state bot_identity with
          | none => rw [hw] at h; simp at h
          | some won =>
            rw [hw] at h
            simp only [Option.some.injEq, Prod.mk.injEq] at h
            rcases h with ⟨h1, _⟩
            rw [← h1, backpropPath_visits,
              expand_stage_visits board root path0 state0 rand tree path state rand2 hx]

theorem think_loop_visits [DecidableEq A] (board : GameBoard S A) (bot_identity : Nat)
    (current_state : S) (n : Nat) (root : MCTSNode A) (rand : List Nat) (fuel : Nat)
    (root1 : MCTSNode A) (rand1 : List Nat)
    (h : think_loop board bot_identity current_state n root rand fuel =
      some (root1, rand1)) :
    root1.visits = root.visits + n := by
  induction n generalizing root rand with
  | zero =>
    simp only [think_loop, Option.some.injEq, Prod.mk.injEq] at h
    rcases h with ⟨h1, _⟩
    rw [← h1]
    rfl
  | succ m ih =>
    simp only [think_loop] at h
    cases hi : mcts_iteration board bot_identity current_state root rand fuel with
    | none => rw [hi] at h; simp at h
    | some pr =>
      rw [hi] at h
      cases pr with
      | mk rootm randm =>
        have h2 := ih rootm randm h
        have h3 := mcts_iteration_visits board bot_identity current_state root rand fuel
          rootm randm hi
        omega

/-- A tiny concrete game used to evaluate the embedding on closed inputs:
states are token counts, the only legal move removes one token, the game
ends at 0 and player 1 scores 1 there (player 2 scores 0). -/
def lineBoard : GameBoard Nat Nat where
  current_player := fun s => if s % 2 = 1 then 1 else 2
  is_ended := fun s => decide (s = 0)
  legal_actions := fun s => if s = 0 then [] else [1]
  next_state := fun s a => s - a
  points_values := fun s =>
    if s = 0 then some (fun p => if p = 1 then 1 else 0) else none

theorem think_inv [DecidableEq A] (board : GameBoard S A) (current_state : S) (N : Nat)
    (rand : List Nat) (fuel : Nat) (a : A) (root1 : MCTSNode A)
    (h : think board current_state N rand fuel = some (a, root1)) :
    (∃ rand1, think_loop board (board.current_player current_state) current_state N
      (MCTSNode.new none (board.legal_actions current_state)) rand fuel =
        some (root1, rand1)) ∧
    get_best_action root1 = some a := by
  simp only [think] at h
  cases hl : think_loop board (board.current_player current_state) current_state N
      (MCTSNode.new none (board.legal_actions current_state)) rand fuel with
  | none => rw [hl] at h; simp at h
  | some pr =>
    rw [hl] at h
    cases pr with
    | mk root2 rand2 =>
      dsimp only at h
      cases hg : get_best_action root2 with
      | none => rw [hg] at h; simp at h
      | some b =>
        rw [hg] at h
        simp only [Option.some.injEq, Prod.mk.injEq] at h
        rcases h with ⟨h1, h2⟩
        subst h1; subst h2
        exact ⟨⟨rand2, rfl⟩, hg⟩

theorem get_best_action_max (root : MCTSNode A) (a : A)
    (h : get_best_action root = some a) :
    ∃ c, (a, c) ∈ root.child_nodes ∧ ∀ q ∈ root.child_nodes, q.2.visits ≤ c.visits := by
  unfold get_best_action at h
  cases hc : root.child_nodes with
  | nil => rw [hc] at h; simp at h
  | cons c0 cs =>
    rw [hc] at h
    simp only [Option.some.injEq] at h
    have hmem : pyMaxBy (fun child => child.2.visits) c0 cs ∈ c0 :: cs :=
      pyMaxBy_mem _ _ _
    have hmax := pyMaxBy_is_max (fun child => child.2.visits) c0 cs
    refine ⟨(pyMaxBy (fun child => child.2.visits) c0 cs).2, ?_, ?_⟩
    · rw [← h]
      simpa using hmem
    · intro q hq
      exact hmax q hq

/-- A fully evaluated one-iteration run of `think` on the toy game: the
single legal action is expanded, the rollout ends at once in a win for the
bot (player 1), and backpropagation credits the child with the win and the
root with the loss-side credit. -/
theorem lineBoard_think_one :
    think lineBoard 1 1 [0, 0, 0] 3 =
      some (1, MCTSNode.mk none 0 1 [] [(1, MCTSNode.mk (some 1) 1 1 [] [])]) := by
  simp [think, think_loop, mcts_iteration, expand_stage, traverse_nodes, lineBoard,
    MCTSNode.new, expand_leaf, pyChoice, dictInsert, nodeAt, replaceAt, rollout,
    heuristic_action_choice, winning_move_cond, blocking_cond, is_win,
    backpropPath, incrNode, lookupChild, setChild, get_best_action, pyMaxBy]

/-- C2: `backpropagate(n, won)` walks the chain from `n` to the root
inclusive (here the chain of node statistics, `n` first, root last), adds 1
to every `visits` on it, and adds win credit that alternates along the
chain: the node `i` steps above `n` receives credit `won` inverted `i`
times, so `n` itself gets 1 exactly when `won` holds; the walk covers the
whole chain, ending after the root.  In particular, for a chain
root → child → grandchild and `won = True`, the grandchild's and the root's
`wins` grow by 1 and the child's by 0 (witness). -/
theorem backpropagate_chain_update (chain : List NodeStats) (won : Bool) :
    (backpropagate chain won).length = chain.length ∧
    ∀ (i : Nat) (s : NodeStats), chain[i]? = some s →
      (backpropagate chain won)[i]? =
        some ⟨s.visits + 1, s.wins + cond (won ^^ decide (i % 2 = 1)) 1 0⟩ :=
  ⟨backpropagate_length chain won, fun i s h => backpropagate_getElem chain won i s h⟩

/-- Witness for C2: the spec's three-node chain, stats listed grandchild
first and root last, with `won = True`: visits all grow by 1 and wins grow
by 1, 0, 1 respectively. -/
theorem backpropagate_chain_update_witness :
    (backpropagate [⟨5, 2⟩, ⟨7, 3⟩, ⟨9, 4⟩] true).length = 3 ∧
    (backpropagate [⟨5, 2⟩, ⟨7, 3⟩, ⟨9, 4⟩] true)[0]? = some ⟨6, 3⟩ ∧
    (backpropagate [⟨5, 2⟩, ⟨7, 3⟩, ⟨9, 4⟩] true)[1]? = some ⟨8, 3⟩ ∧
    (backpropagate [⟨5, 2⟩, ⟨7, 3⟩, ⟨9, 4⟩] true)[2]? = some ⟨10, 5⟩ :=
  ⟨(backpropagate_chain_update [⟨5, 2⟩, ⟨7, 3⟩, ⟨9, 4⟩] true).1,
   (backpropagate_chain_update [⟨5, 2⟩, ⟨7, 3⟩, ⟨9, 4⟩] true).2 0 ⟨5, 2⟩ rfl,
   (backpropagate_chain_update [⟨5, 2⟩, ⟨7, 3⟩, ⟨9, 4⟩] true).2 1 ⟨7, 3⟩ rfl,
   (backpropagate_chain_update [⟨5, 2⟩, ⟨7, 3⟩, ⟨9, 4⟩] true).2 2 ⟨9, 4⟩ rfl⟩

/-- C3: when `think` completes having executed `N ≥ 1` iterations of its
search loop (modelled by the iteration count `N`; completion is the
hypothesis that it returned a result), the root node's `visits` equals
exactly `N`: the root starts at 0, every iteration performs exactly one
backpropagation, and every backpropagation increments the root's visits
exactly once. -/
theorem think_root_visits_eq_iterations [DecidableEq A] (board : GameBoard S A)
    (current_state : S) (N : Nat) (rand : List Nat) (fuel : Nat) (a : A)
    (root1 : MCTSNode A) (hN : 1 ≤ N)
    (h : think board current_state N rand fuel = some (a, root1)) :
    root1.visits = N := by
  obtain ⟨⟨rand1, hl⟩, _⟩ := think_inv board current_state N rand fuel a root1 h
  have h2 := think_loop_visits board (board.current_player current_state) current_state N
    (MCTSNode.new none (board.legal_actions current_state)) rand fuel root1 rand1 hl
  simpa [MCTSNode.new] using h2

/-- Witness for C3: one concrete iteration on the toy game leaves the root
with exactly one visit. -/
theorem think_root_visits_eq_iterations_witness :
    1 ≤ 1 ∧
    (MCTSNode.mk none 0 1 [] [(1, MCTSNode.mk (some 1) 1 1 [] [])] : MCTSNode Nat).visits
      = 1 :=
  ⟨le_refl 1,
   think_root_visits_eq_iterations lineBoard 1 1 [0, 0, 0] 3 1
     (MCTSNode.mk none 0 1 [] [(1, MCTSNode.mk (some 1) 1 1 [] [])]) (le_refl 1)
     lineBoard_think_one⟩

/-- C8 (the code, not the claim): calling `think` with `time_budget = 0`
executes zero search iterations — the elapsed wall-clock time is
nonnegative, so `time() - start_time < 0` never holds — and then
`get_best_action` takes `max` over the root's empty child dict, which
raises an uncaught `ValueError` (modelled by `none`): the call neither
guarantees an iteration nor fails with a documented error, for every board,
starting state, random stream and rollout fuel. -/
theorem think_zero_iterations_none [DecidableEq A] (board : GameBoard S A)
    (current_state : S) (rand : List Nat) (fuel : Nat) :
    think board current_state 0 rand fuel = none := by
  simp [think, think_loop, get_best_action, MCTSNode.new]

/-- C1: whenever a completed call of `think` returns an action (which
requires its loop to have run at least once, since otherwise the root has
no children and the final `max` fails), the returned action is the key of a
root child whose visit count is maximal among all root children; and when
exactly one root child has the strictly highest visit count, that child's
action is the one returned. -/
theorem think_returns_max_visits_action [DecidableEq A] (board : GameBoard S A)
    (current_state : S) (N : Nat) (rand : List Nat) (fuel : Nat) (a : A)
    (root1 : MCTSNode A)
    (h : think board current_state N rand fuel = some (a, root1)) :
    (∃ c, (a, c) ∈ root1.child_nodes ∧ ∀ q ∈ root1.child_nodes, q.2.visits ≤ c.visits) ∧
    ∀ astar cstar, (astar, cstar) ∈ root1.child_nodes →
      (∀ q ∈ root1.child_nodes, q.1 ≠ astar → q.2.visits < cstar.visits) → a = astar := by
  obtain ⟨_, hg⟩ := think_inv board current_state N rand fuel a root1 h
  obtain ⟨c, hmem, hmax⟩ := get_best_action_max root1 a hg
  refine ⟨⟨c, hmem, hmax⟩, ?_⟩
  intro astar cstar hstar hstrict
  by_contra hne
  have h1 : (a, c).2.visits < cstar.visits := hstrict (a, c) hmem hne
  have h2 : cstar.visits ≤ c.visits := hmax (astar, cstar) hstar
  simp only at h1
  omega

/-- Witness for C1: the concrete one-iteration run returns action 1, whose
child is the unique (hence maximal) root child. -/
theorem think_returns_max_visits_action_witness :
    (∃ c, ((1 : Nat), c) ∈
        (MCTSNode.mk none 0 1 [] [(1, MCTSNode.mk (some 1) 1 1 [] [])] :
          MCTSNode Nat).child_nodes ∧
      ∀ q ∈ (MCTSNode.mk none 0 1 [] [(1, MCTSNode.mk (some 1) 1 1 [] [])] :
          MCTSNode Nat).child_nodes, q.2.visits ≤ c.visits) ∧
    ∀ astar cstar, (astar, cstar) ∈
        (MCTSNode.mk none 0 1 [] [(1, MCTSNode.mk (some 1) 1 1 [] [])] :
          MCTSNode Nat).child_nodes →
      (∀ q ∈ (MCTSNode.mk none 0 1 [] [(1, MCTSNode.mk (some 1) 1 1 [] [])] :
          MCTSNode Nat).child_nodes, q.1 ≠ astar → q.2.visits < cstar.visits) →
      (1 : Nat) = astar :=
  think_returns_max_visits_action lineBoard 1 1 [0, 0, 0] 3 1
    (MCTSNode.mk none 0 1 [] [(1, MCTSNode.mk (some 1) 1 1 [] [])]) lineBoard_think_one

/-- A tiny board whose only outcome is a draw: every state is terminal and
both players score 1/2. -/
def drawBoard : GameBoard Nat Nat where
  current_player := fun _ => 1
  is_ended := fun _ => true
  legal_actions := fun _ => []
  next_state := fun s _ => s
  points_values := fun _ => some (fun _ => 1 / 2)

/-- C4: a never-visited child scores `+infinity` under `ucb` for either
perspective flag, and therefore whenever the node being descended from has
at least one never-visited child, the child chosen by the selection step of
`traverse_nodes` has zero visits, regardless of the win/visit statistics of
its visited siblings. -/
theorem ucb_unvisited_inf_and_selected (board : GameBoard S A) (bot_identity : Nat)
    (state : S) (parent_visits : Nat) (c : A × MCTSNode A)
    (cs : List (A × MCTSNode A)) :
    (∀ (n : MCTSNode A) (b : Bool) (pv : Nat), n.visits = 0 → ucb n b pv = ⊤) ∧
    (∀ p ∈ c :: cs, p.2.visits = 0 →
      (select_child board bot_identity state parent_visits c cs).2.visits = 0) := by
  constructor
  · intro n b pv h
    simp [ucb, h]
  · intro p hp hz
    simp only [select_child]
    have hmax := pyMaxBy_is_max
      (fun q : A × MCTSNode A =>
        ucb q.2 (board.current_player state != bot_identity) parent_visits) c cs p hp
    have hp_top : ucb p.2 (board.current_player state != bot_identity) parent_visits
        = ⊤ := by
      simp [ucb, hz]
    simp only at hmax
    rw [hp_top] at hmax
    have htop := top_le_iff.mp hmax
    by_contra hnz
    rw [ucb, if_neg hnz] at htop
    exact WithTop.coe_ne_top htop

/-- Witness for C4: a fresh (zero-visit) child scores `⊤`, and with a single
zero-visit child the selection step picks a zero-visit child. -/
theorem ucb_unvisited_inf_and_selected_witness :
    ucb (MCTSNode.new none [] : MCTSNode Nat) true 5 = ⊤ ∧
    (select_child lineBoard 1 1 7 (1, MCTSNode.new (some 1) []) []).2.visits = 0 :=
  ⟨(ucb_unvisited_inf_and_selected lineBoard 1 1 7 (1, MCTSNode.new (some 1) []) []).1
      (MCTSNode.new none []) true 5 rfl,
   (ucb_unvisited_inf_and_selected lineBoard 1 1 7 (1, MCTSNode.new (some 1) []) []).2
      (1, MCTSNode.new (some 1) []) (List.mem_cons_self _ _) rfl⟩

/-- C10: `is_win(board, state, identity_of_bot)` fails fast (the assertion,
modelled by `none`) exactly when `points_values(state)` is `None`, never
returning a default in that case; and when `points_values(state)` is
present it returns whether the bot's score in that mapping equals 1, so a
draw score such as 0.5 yields `False`. -/
theorem is_win_spec (board : GameBoard S A) (state : S) (identity_of_bot : Nat) :
    (is_win board state identity_of_bot = none ↔ board.points_values state = none) ∧
    ∀ outcome, board.points_values state = some outcome →
      is_win board state identity_of_bot = some (decide (outcome identity_of_bot = 1)) := by
  constructor
  · constructor
    · intro h
      cases hp : board.points_values state with
      | none => rfl
      | some o =>
        rw [is_win, hp] at h
        simp at h
    · intro h
      simp [is_win, h]
  · intro o h
    simp [is_win, h]

/-- Witness for C10: on a non-terminal state of the toy game the check
fails fast, and on the draw board (score 1/2 each) it returns `False`. -/
theorem is_win_spec_witness :
    is_win lineBoard 3 1 = none ∧ is_win drawBoard 0 1 = some false := by
  constructor
  · exact (is_win_spec lineBoard 3 1).1.mpr rfl
  · have h := (is_win_spec drawBoard 0 1).2 (fun _ => 1 / 2) rfl
    rw [h]
    norm_num

theorem find?_eq_some_of_split (p : A → Bool) (l1 : List A) (a : A) (l2 : List A)
    (hpa : p a = true) (hl1 : ∀ b ∈ l1, p b = false) :
    (l1 ++ a :: l2).find? p = some a := by
  induction l1 with
  | nil => simp [List.find?_cons_of_pos, hpa]
  | cons b l1 ih =>
    have hb : p b = false := hl1 b (List.mem_cons_self _ _)
    rw [List.cons_append, List.find?_cons_of_neg]
    · exact ih (fun x hx => hl1 x (List.mem_cons_of_mem _ hx))
    · simp [hb]

/-- C5: `heuristic_action_choice(board, state, legal_actions)` evaluates its
three tiers in order.  If some legal action satisfies the first loop's
condition (the successor state has `points_values` not `None`), the first
such action in list order is returned; otherwise, if some legal action
satisfies the second loop's condition (a terminal successor that is a win
for the opponent of the player to move), the first such action is
returned; otherwise a random element of `legal_actions` is returned (the
uniform draw of Python's `choice`, modelled by the head of the random
stream indexing into the list). -/
theorem heuristic_action_choice_three_tiers (board : GameBoard S A) (state : S)
    (legal_actions : List A) (rand : List Nat) :
    (∀ (l1 : List A) (a : A) (l2 : List A), legal_actions = l1 ++ a :: l2 →
      winning_move_cond board state a = true →
      (∀ b ∈ l1, winning_move_cond board state b = false) →
      heuristic_action_choice board state legal_actions rand = some (a, rand)) ∧
    ((∀ a ∈ legal_actions, winning_move_cond board state a = false) →
      ∀ (l1 : List A) (a : A) (l2 : List A), legal_actions = l1 ++ a :: l2 →
        blocking_cond board state a = true →
        (∀ b ∈ l1, blocking_cond board state b = false) →
        heuristic_action_choice board state legal_actions rand = some (a, rand)) ∧
    ((∀ a ∈ legal_actions, winning_move_cond board state a = false) →
      (∀ a ∈ legal_actions, blocking_cond board state a = false) →
      heuristic_action_choice board state legal_actions rand =
        (pyChoice (rand.headD 0) legal_actions).map (fun a => (a, rand.tail))) := by
  refine ⟨?_, ?_, ?_⟩
  · intro l1 a l2 hsplit hpa hl1
    subst hsplit
    rw [heuristic_action_choice, find?_eq_some_of_split _ l1 a l2 hpa hl1]
  · intro hnone l1 a l2 hsplit hpa hl1
    have hw : legal_actions.find? (winning_move_cond board state) = none := by
      rw [List.find?_eq_none]
      intro x hx
      simp [hnone x hx]
    rw [heuristic_action_choice, hw]
    subst hsplit
    rw [find?_eq_some_of_split _ l1 a l2 hpa hl1]
  · intro hnone1 hnone2
    have hw : legal_actions.find? (winning_move_cond board state) = none := by
      rw [List.find?_eq_none]
      intro x hx
      simp [hnone1 x hx]
    have hb : legal_actions.find? (blocking_cond board state) = none := by
      rw [List.find?_eq_none]
      intro x hx
      simp [hnone2 x hx]
    rw [heuristic_action_choice, hw, hb]
    cases hp : pyChoice (rand.headD 0) legal_actions with
    | none => rfl
    | some a => rfl

/-- Witness for C5: on the toy game the single legal action leads to a
terminal state, so the first tier fires and the random stream is left
untouched. -/
theorem heuristic_action_choice_three_tiers_witness :
    heuristic_action_choice lineBoard 1 [1] [9] = some (1, [9]) :=
  (heuristic_action_choice_three_tiers lineBoard 1 [1] [9]).1 [] 1 [] rfl rfl
    (fun b hb => absurd hb (List.not_mem_nil b))

/-- The two-tier policy stated by the claim's words: play the first action
whose successor state is terminal if one exists, otherwise choose a random
legal action.  This is the comparison definition for the refinement claim
that the second tier of `heuristic_action_choice` is dead code. -/
def heuristic_two_tier (board : GameBoard S A) (state : S) (legal_actions : List A)
    (rand : List Nat) : Option (A × List Nat) :=
  match legal_actions.find? (winning_move_cond board state) with
  | some action => some (action, rand)
  | none =>
    match pyChoice (rand.headD 0) legal_actions with
    | none => none
    | some action => some (action, rand.tail)

/-- C6: the second tier of `heuristic_action_choice` is unreachable dead
code: whenever the second loop runs, the first loop has established that no
legal action has a terminal successor, and the second loop's condition
requires a terminal successor, so it never fires; consequently
`heuristic_action_choice` is extensionally equal to the two-tier policy. -/
theorem heuristic_action_choice_eq_two_tier (board : GameBoard S A) (state : S)
    (legal_actions : List A) (rand : List Nat) :
    heuristic_action_choice board state legal_actions rand =
      heuristic_two_tier board state legal_actions rand := by
  rw [heuristic_action_choice, heuristic_two_tier]
  cases hw : legal_actions.find? (winning_move_cond board state) with
  | some a => rfl
  | none =>
    have hall := List.find?_eq_none.mp hw
    have hb : legal_actions.find? (blocking_cond board state) = none := by
      rw [List.find?_eq_none]
      intro a ha
      have h1 := hall a ha
      simp only [winning_move_cond, Bool.not_eq_true] at h1
      simp [blocking_cond, h1]
    rw [hb]

/-- C7: the action partition invariant.  At creation a node has no children
and `untried_actions` equal to the supplied action list (which every call
site sets to the legal actions of the node's state), so the two together
are exactly that legal-action set.  And `expand_leaf`, on a node whose
children keys and untried actions are jointly duplicate-free, moves exactly
one action from `untried_actions` into `children`: the chosen action was
untried, the key list grows by exactly that action, the untried list loses
exactly it, their concatenation stays a permutation of the original (so
the union is invariant and each action still appears exactly once), and
the single new child starts childless with the legal actions of its own
state — expansion never creates two children for the same action. -/
theorem node_partition_invariant [DecidableEq A] (board : GameBoard S A)
    (node : MCTSNode A) (state : S) (r : Nat)
    (hne : node.untried_actions ≠ [])
    (hnd : (node.child_nodes.map Prod.fst ++ node.untried_actions).Nodup) :
    (∀ (pa : Option A) (l : List A),
      (MCTSNode.new pa l : MCTSNode A).child_nodes = [] ∧
      (MCTSNode.new pa l).untried_actions = l) ∧
    ∃ node1 action ns,
      expand_leaf board node state r = some (node1, action, ns) ∧
      action ∈ node.untried_actions ∧
      node1.child_nodes.map Prod.fst = node.child_nodes.map Prod.fst ++ [action] ∧
      node1.untried_actions = node.untried_actions.erase action ∧
      (node1.child_nodes.map Prod.fst ++ node1.untried_actions).Perm
        (node.child_nodes.map Prod.fst ++ node.untried_actions) ∧
      (node1.child_nodes.map Prod.fst ++ node1.untried_actions).Nodup ∧
      ∃ child, node1.child_nodes.map Prod.snd = node.child_nodes.map Prod.snd ++ [child] ∧
        child.child_nodes = [] ∧ child.untried_actions = board.legal_actions ns := by
  refine ⟨fun pa l => ⟨rfl, rfl⟩, ?_⟩
  cases node with
  | mk pa0 w v ua ch =>
    simp only [MCTSNode.untried_actions_mk, MCTSNode.child_nodes_mk] at hne hnd ⊢
    have hlen : 0 < ua.length := List.length_pos.mpr hne
    have hlt : r % ua.length < ua.length := Nat.mod_lt _ hlen
    have hp : pyChoice r ua = some (ua[r % ua.length]) := by
      simp [pyChoice, List.getElem?_eq_getElem hlt]
    have hmem : ua[r % ua.length] ∈ ua := List.getElem_mem hlt
    have hdisj : ua[r % ua.length] ∉ ch.map Prod.fst := by
      intro hk
      exact (List.nodup_append.mp hnd).2.2 hk hmem
    have hanyf : (ch.any fun p => decide (p.1 = ua[r % ua.length])) = false := by
      rw [List.any_eq_false]
      intro p hpch
      simp only [decide_eq_true_eq]
      intro heq
      exact hdisj (List.mem_map.mpr ⟨p, hpch, heq⟩)
    have hins : dictInsert ch (ua[r % ua.length])
        (MCTSNode.new (some (ua[r % ua.length]))
          (board.legal_actions (board.next_state state (ua[r % ua.length])))) =
        ch ++ [(ua[r % ua.length],
          MCTSNode.new (some (ua[r % ua.length]))
            (board.legal_actions (board.next_state state (ua[r % ua.length]))))] := by
      unfold dictInsert
      rw [hanyf]
      simp
    have hperm_ua : ua.Perm (ua[r % ua.length] :: ua.erase (ua[r % ua.length])) :=
      List.perm_cons_erase hmem
    refine ⟨MCTSNode.mk pa0 w v (ua.erase (ua[r % ua.length]))
        (dictInsert ch (ua[r % ua.length])
          (MCTSNode.new (some (ua[r % ua.length]))
            (board.legal_actions (board.next_state state (ua[r % ua.length]))))),
      ua[r % ua.length],
      board.next_state state (ua[r % ua.length]), ?_, hmem, ?_, rfl, ?_, ?_, ?_⟩
    · simp only [expand_leaf, MCTSNode.untried_actions_mk, hp]
    · rw [hins]
      simp
    · rw [hins]
      simp only [MCTSNode.child_nodes_mk, MCTSNode.untried_actions_mk, List.map_append]
      rw [List.append_assoc]
      exact List.Perm.append_left (ch.map Prod.fst) hperm_ua.symm
    · have hperm : ((ch ++ [(ua[r % ua.length],
          MCTSNode.new (some (ua[r % ua.length]))
            (board.legal_actions (board.next_state state (ua[r % ua.length]))))]).map
            Prod.fst ++ ua.erase (ua[r % ua.length])).Perm
          (ch.map Prod.fst ++ ua) := by
        simp only [List.map_append]
        rw [List.append_assoc]
        exact List.Perm.append_left (ch.map Prod.fst) hperm_ua.symm
      rw [hins]
      simp only [MCTSNode.child_nodes_mk, MCTSNode.untried_actions_mk]
      exact hperm.symm.nodup hnd
    · refine ⟨MCTSNode.new (some (ua[r % ua.length]))
        (board.legal_actions (board.next_state state (ua[r % ua.length]))), ?_, rfl, rfl⟩
      rw [hins]
      simp

/-- Witness for C7 at a concrete node with one child (key 6) and two
untried actions (4 and 5): the creation facts hold and the expansion moves
action 4 into the children. -/
theorem node_partition_invariant_witness :
    (∀ (pa : Option Nat) (l : List Nat),
      (MCTSNode.new pa l : MCTSNode Nat).child_nodes = [] ∧
      (MCTSNode.new pa l).untried_actions = l) ∧
    ∃ node1 action ns,
      expand_leaf lineBoard
          (MCTSNode.mk none 2 3 [4, 5] [(6, MCTSNode.new (some 6) [])]) 9 0 =
        some (node1, action, ns) ∧
      action ∈ (MCTSNode.mk none 2 3 [4, 5]
        [(6, MCTSNode.new (some 6) [])] : MCTSNode Nat).untried_actions ∧
      node1.child_nodes.map Prod.fst =
        (MCTSNode.mk none 2 3 [4, 5]
          [(6, MCTSNode.new (some 6) [])] : MCTSNode Nat).child_nodes.map Prod.fst
          ++ [action] ∧
      node1.untried_actions =
        (MCTSNode.mk none 2 3 [4, 5]
          [(6, MCTSNode.new (some 6) [])] : MCTSNode Nat).untried_actions.erase action ∧
      (node1.child_nodes.map Prod.fst ++ node1.untried_actions).Perm
        ((MCTSNode.mk none 2 3 [4, 5]
          [(6, MCTSNode.new (some 6) [])] : MCTSNode Nat).child_nodes.map Prod.fst ++
         (MCTSNode.mk none 2 3 [4, 5]
          [(6, MCTSNode.new (some 6) [])] : MCTSNode Nat).untried_actions) ∧
      (node1.child_nodes.map Prod.fst ++ node1.untried_actions).Nodup ∧
      ∃ child, node1.child_nodes.map Prod.snd =
          (MCTSNode.mk none 2 3 [4, 5]
            [(6, MCTSNode.new (some 6) [])] : MCTSNode Nat).child_nodes.map Prod.snd
            ++ [child] ∧
        child.child_nodes = [] ∧ child.untried_actions = lineBoard.legal_actions ns :=
  node_partition_invariant lineBoard
    (MCTSNode.mk none 2 3 [4, 5] [(6, MCTSNode.new (some 6) [])]) 9 0
    (by simp) (by simp [MCTSNode.new])

/-- C9 counterexample: two root children tie at 3 visits.  Reversing the
container (dict insertion) order reverses the returned action, and the
first container returns key 5, not the lowest key 2: the tie is resolved by
container iteration order, not by an explicitly specified rule such as the
lowest action key. -/
theorem get_best_action_tie_order_dependent :
    get_best_action (MCTSNode.mk none 0 0 []
        [(5, MCTSNode.mk none 0 3 [] []), (2, MCTSNode.mk none 0 3 [] [])]) = some 5 ∧
    get_best_action (MCTSNode.mk none 0 0 []
        [(2, MCTSNode.mk none 0 3 [] []), (5, MCTSNode.mk none 0 3 [] [])]) = some 2 := by
  constructor
  · rfl
  · rfl

theorem pyMaxBy_first [LinearOrder β] (f : A → β) (x : A) (xs : List A) :
    ∃ l1 l2, x :: xs = l1 ++ pyMaxBy f x xs :: l2 ∧
      ∀ y ∈ l1, f y < f (pyMaxBy f x xs) := by
  induction xs generalizing x with
  | nil =>
    refine ⟨[], [], ?_, ?_⟩
    · simp [pyMaxBy]
    · simp
  | cons c cs ih =>
    have hstep : pyMaxBy f x (c :: cs) = pyMaxBy f (if f x < f c then c else x) cs := by
      simp [pyMaxBy]
    by_cases hfc : f x < f c
    · obtain ⟨l1, l2, hsplit, hstrict⟩ := ih c
      rw [hstep, if_pos hfc]
      rw [if_pos hfc] at hstep
      refine ⟨x :: l1, l2, ?_, ?_⟩
      · rw [List.cons_append, ← hsplit]
      · intro y hy
        rcases List.mem_cons.mp hy with h1 | h1
        · subst h1
          have hcle : f c ≤ f (pyMaxBy f c cs) :=
            pyMaxBy_is_max f c cs c (List.mem_cons_self _ _)
          exact lt_of_lt_of_le hfc hcle
        · exact hstrict y h1
    · obtain ⟨l1, l2, hsplit, hstrict⟩ := ih x
      rw [hstep, if_neg hfc]
      rw [if_neg hfc] at hstep
      cases l1 with
      | nil =>
        simp only [List.nil_append, List.cons.injEq] at hsplit
        obtain ⟨hxm, _⟩ := hsplit
        refine ⟨[], c :: cs, ?_, ?_⟩
        · rw [← hxm]
          rfl
        · simp
      | cons z l1t =>
        rw [List.cons_append, List.cons.injEq] at hsplit
        obtain ⟨hzx, hcs⟩ := hsplit
        refine ⟨x :: c :: l1t, l2, ?_, ?_⟩
        · rw [List.cons_append, List.cons_append, ← hcs]
        · intro y hy
          rcases List.mem_cons.mp hy with h1 | h1
          · subst h1
            have := hstrict z (List.mem_cons_self _ _)
            rw [← hzx] at this
            exact this
          · rcases List.mem_cons.mp h1 with h2 | h2
            · subst h2
              have hx := hstrict z (List.mem_cons_self _ _)
              rw [← hzx] at hx
              exact lt_of_le_of_lt (le_of_not_lt hfc) hx
            · exact hstrict y (List.mem_cons_of_mem _ h2)

/-- C9 amended: the implementation does resolve every tie to a single
deterministic winner, but the rule is container iteration (dict insertion)
order, not an explicitly specified key-based rule: `get_best_action`
returns the key of the first root child, in the order of the `child_nodes`
mapping, whose visit count is maximal — every child at or after it has at
most its visits and every child strictly before it has strictly fewer
(Python's `max` replaces the running best only on a strict improvement).
The UCB selection in `traverse_nodes` uses the same `max`, hence the same
earliest-maximum rule. -/
theorem get_best_action_first_max (root : MCTSNode A) (c : A × MCTSNode A)
    (cs : List (A × MCTSNode A)) (h : root.child_nodes = c :: cs) :
    ∃ (p : A × MCTSNode A) (l1 l2 : List (A × MCTSNode A)),
      get_best_action root = some p.1 ∧
      root.child_nodes = l1 ++ p :: l2 ∧
      (∀ q ∈ root.child_nodes, q.2.visits ≤ p.2.visits) ∧
      (∀ q ∈ l1, q.2.visits < p.2.visits) := by
  obtain ⟨l1, l2, hsplit, hstrict⟩ :=
    pyMaxBy_first (fun q : A × MCTSNode A => q.2.visits) c cs
  refine ⟨pyMaxBy (fun q : A × MCTSNode A => q.2.visits) c cs, l1, l2, ?_, ?_, ?_, hstrict⟩
  · simp only [get_best_action, h]
  · rw [h, hsplit]
  · intro q hq
    rw [h] at hq
    exact pyMaxBy_is_max (fun q : A × MCTSNode A => q.2.visits) c cs q hq

/-- Witness for C9's amended statement: on the tied children inserted as
keys 5 then 2, the returned key 5 is the first maximal child in container
order. -/
theorem get_best_action_first_max_witness :
    ∃ (p : Nat × MCTSNode Nat) (l1 l2 : List (Nat × MCTSNode Nat)),
      get_best_action (MCTSNode.mk none 0 0 []
        [(5, MCTSNode.mk none 0 3 [] []), (2, MCTSNode.mk none 0 3 [] [])]) = some p.1 ∧
      (MCTSNode.mk none 0 0 []
        [(5, MCTSNode.mk none 0 3 [] []),
         (2, MCTSNode.mk none 0 3 [] [])] : MCTSNode Nat).child_nodes = l1 ++ p :: l2 ∧
      (∀ q ∈ (MCTSNode.mk none 0 0 []
        [(5, MCTSNode.mk none 0 3 [] []),
         (2, MCTSNode.mk none 0 3 [] [])] : MCTSNode Nat).child_nodes,
        q.2.visits ≤ p.2.visits) ∧
      (∀ q ∈ l1, q.2.visits < p.2.visits) :=
  get_best_action_first_max
    (MCTSNode.mk none 0 0 []
      [(5, MCTSNode.mk none 0 3 [] []), (2, MCTSNode.mk none 0 3 [] [])])
    (5, MCTSNode.mk none 0 3 [] []) [(2, MCTSNode.mk none 0 3 [] [])] rfl

/-- The statistics pair of a node, for relating the tree update to the
chain-based `backpropagate`. -/
def statsOf (t : MCTSNode A) : NodeStats :=
  ⟨t.visits, t.wins⟩

/-- The statistics along a path: the node itself, then (when the lookup
succeeds) the chain below it, root end first. -/
def chainOf [DecidableEq A] : List A → MCTSNode A → List NodeStats
  | [], t => [statsOf t]
  | a :: rest, t =>
    statsOf t ::
      (match lookupChild t a with
       | none => []
       | some c => chainOf rest c)

theorem statsOf_incrNode (t : MCTSNode A) (credit : Bool) :
    statsOf (incrNode t credit) = ⟨t.visits + 1, t.wins + cond credit 1 0⟩ := by
  cases t
  rfl

theorem statsOf_setChild [DecidableEq A] (t : MCTSNode A) (a : A) (c : MCTSNode A) :
    statsOf (setChild t a c) = statsOf t := by
  cases t
  rfl

theorem lookupChild_incrNode [DecidableEq A] (t : MCTSNode A) (credit : Bool) (a : A) :
    lookupChild (incrNode t credit) a = lookupChild t a := by
  cases t
  rfl

theorem lookupChild_setChild [DecidableEq A] (t : MCTSNode A) (a : A)
    (c0 c : MCTSNode A) (h : lookupChild t a = some c0) :
    lookupChild (setChild t a c) a = some c := by
  cases t with
  | mk pa w v ua ch =>
    simp only [lookupChild, setChild, MCTSNode.child_nodes_mk] at h ⊢
    induction ch with
    | nil => simp at h
    | cons q ch ih =>
      by_cases hq : q.1 = a
      · simp [List.find?_cons_of_pos, hq]
      · have h2 : Option.map Prod.snd (List.find? (fun p => decide (p.1 = a)) ch)
            = some c0 := by
          rw [List.find?_cons_of_neg] at h
          · exact h
          · simp [hq]
        rw [List.map_cons, if_neg hq, List.find?_cons_of_neg]
        · exact ih h2
        · simp [hq]

theorem chainOf_length [DecidableEq A] (p : List A) (t n : MCTSNode A)
    (h : nodeAt p t = some n) : (chainOf p t).length = p.length + 1 := by
  induction p generalizing t with
  | nil => rfl
  | cons a rest ih =>
    simp only [nodeAt] at h
    cases hl : lookupChild t a with
    | none => rw [hl] at h; simp at h
    | some c =>
      rw [hl] at h
      simp only [chainOf, hl, List.length_cons]
      rw [ih c h]

theorem backpropagate_append (l1 l2 : List NodeStats) (won : Bool) :
    backpropagate (l1 ++ l2) won =
      backpropagate l1 won ++ backpropagate l2 (won ^^ decide (l1.length % 2 = 1)) := by
  induction l1 generalizing won with
  | nil => simp [backpropagate]
  | cons s l1 ih =>
    simp only [List.cons_append, backpropagate, List.append_eq]
    rw [ih (!won), bool_flip_parity]
    simp

/-- Faithfulness bridge: along a valid path the tree-rebuilding
`backpropPath` used by the loop produces exactly the statistics that the
chain-based `backpropagate` (the direct embedding of the Python
parent-pointer walk, leaf first) produces on the reversed chain. -/
theorem backpropPath_agrees_backpropagate [DecidableEq A] (p : List A) (won : Bool)
    (t n : MCTSNode A) (hvalid : nodeAt p t = some n) :
    chainOf p (backpropPath p won t) =
      (backpropagate ((chainOf p t).reverse) won).reverse := by
  induction p generalizing t won with
  | nil =>
    simp only [backpropPath, chainOf, List.reverse_cons, List.reverse_nil,
      List.nil_append, backpropagate, statsOf_incrNode]
    rfl
  | cons a rest ih =>
    simp only [nodeAt] at hvalid
    cases hl : lookupChild t a with
    | none => rw [hl] at hvalid; simp at hvalid
    | some c =>
      rw [hl] at hvalid
      have hlen : (chainOf rest c).length = rest.length + 1 := chainOf_length rest c n hvalid
      have hl1 : lookupChild
          (incrNode t (won ^^ decide ((rest.length + 1) % 2 = 1))) a = some c := by
        rw [lookupChild_incrNode, hl]
      simp only [backpropPath, hl]
      have hl2 : lookupChild
          (setChild (incrNode t (won ^^ decide ((rest.length + 1) % 2 = 1))) a
            (backpropPath rest won c)) a = some (backpropPath rest won c) :=
        lookupChild_setChild _ a c _ hl1
      simp only [chainOf, hl2, hl, statsOf_setChild, statsOf_incrNode]
      rw [List.reverse_cons, backpropagate_append, List.reverse_append,
        List.length_reverse, hlen]
      simp only [backpropagate, List.reverse_cons, List.reverse_nil, List.nil_append]
      rw [ih won c hvalid]
      rfl

end MCTS
